import Mathlib

/-!
Verification of the contour core of `src/gsk/gskcontour.c`.

The embedding uses exact rational arithmetic (`ℚ`) for the C `float`
computations: all properties checked here are about the algorithmic /
structural behaviour of the code, not about rounding.  External
collaborators that are not part of this repository (the curve primitive
`gskcurve`, the glib array, graphene's point distance, libm trigonometry,
the path builder) are either translated from the spec's description of
their interface or kept as explicit parameters of the definitions, so that
every theorem quantifies over all implementations satisfying that
interface.
-/

namespace Gsk

/-- A 2-D point, `graphene_point_t` with exact rational coordinates. -/
structure Point where
  x : ℚ
  y : ℚ

instance : Inhabited Point := ⟨⟨0, 0⟩⟩

/-- Linear interpolation `graphene_point_interpolate`: `a + (b - a) * t`. -/
def lerp (a b : Point) (t : ℚ) : Point :=
  ⟨a.x + (b.x - a.x) * t, a.y + (b.y - a.y) * t⟩

/-- A distance function standing for the external
`graphene_point_distance`.  The contour code only feeds its values into
comparisons and sums, so the theorems are stated for every function
satisfying `DistSpec`. -/
def Dist : Type := Point → Point → ℚ

/-- The properties of `graphene_point_distance` that the contour code
relies on: distances are nonnegative, zero exactly on equal points, and
symmetric. -/
def DistSpec (d : Dist) : Prop :=
  ∀ a b, 0 ≤ d a b ∧ (d a b = 0 ↔ a = b) ∧ d a b = d b a

/-- Taxicab distance: a concrete computable instance of `DistSpec`, used
by witnesses and counterexamples (on axis-aligned data it agrees with the
euclidean distance of the C code). -/
def dist1 : Dist := fun a b => |a.x - b.x| + |a.y - b.y|

theorem distSpec_dist1 : DistSpec dist1 := by
  intro a b
  refine ⟨add_nonneg (abs_nonneg _) (abs_nonneg _), ?_, ?_⟩
  · constructor
    · intro h
      have hx : |a.x - b.x| = 0 := by
        have h1 := abs_nonneg (a.x - b.x)
        have h2 := abs_nonneg (a.y - b.y)
        have : |a.x - b.x| + |a.y - b.y| = 0 := h
        linarith
      have hy : |a.y - b.y| = 0 := by
        have h1 := abs_nonneg (a.x - b.x)
        have : |a.x - b.x| + |a.y - b.y| = 0 := h
        linarith
      have h1 : a.x = b.x := by have := abs_eq_zero.mp hx; linarith
      have h2 : a.y = b.y := by have := abs_eq_zero.mp hy; linarith
      cases a; cases b; simp_all
    · intro h; subst h; simp [dist1]
  · unfold dist1
    rw [abs_sub_comm a.x b.x, abs_sub_comm a.y b.y]

/-- One curve segment, the payload of `GskCurve` (`gskcurveprivate.h`,
external collaborator).  A conic carries its rational weight. -/
inductive Curve where
  | line (a b : Point)
  | quad (a b c : Point)
  | cubic (a b c d : Point)
  | conic (a b : Point) (w : ℚ) (c : Point)

instance : Inhabited Curve := ⟨.line ⟨0, 0⟩ ⟨0, 0⟩⟩

/-- Modelled from the spec: the curve primitive's
`evaluate(position) → point` (`gsk_curve_get_point`), the standard
Bézier/rational-Bézier evaluation of one segment. -/
def curveAt (c : Curve) (t : ℚ) : Point :=
  match c with
  | .line a b => lerp a b t
  | .quad a b c =>
      ⟨(1 - t) * (1 - t) * a.x + 2 * (1 - t) * t * b.x + t * t * c.x,
       (1 - t) * (1 - t) * a.y + 2 * (1 - t) * t * b.y + t * t * c.y⟩
  | .cubic a b c d =>
      ⟨(1 - t) * (1 - t) * (1 - t) * a.x + 3 * (1 - t) * (1 - t) * t * b.x
         + 3 * (1 - t) * t * t * c.x + t * t * t * d.x,
       (1 - t) * (1 - t) * (1 - t) * a.y + 3 * (1 - t) * (1 - t) * t * b.y
         + 3 * (1 - t) * t * t * c.y + t * t * t * d.y⟩
  | .conic a b w c =>
      let den := (1 - t) * (1 - t) + 2 * w * t * (1 - t) + t * t
      ⟨((1 - t) * (1 - t) * a.x + 2 * w * t * (1 - t) * b.x + t * t * c.x) / den,
       ((1 - t) * (1 - t) * a.y + 2 * w * t * (1 - t) * b.y + t * t * c.y) / den⟩

/-- Start point of a curve, `gsk_curve_get_start_point`. -/
def curveStart : Curve → Point
  | .line a _ => a
  | .quad a _ _ => a
  | .cubic a _ _ _ => a
  | .conic a _ _ _ => a

/-- End point of a curve. -/
def curveEnd : Curve → Point
  | .line _ b => b
  | .quad _ _ c => c
  | .cubic _ _ _ d => d
  | .conic _ _ _ c => c

/-- Modelled from the spec: the curve primitive's `reverse()`. -/
def reverseCurve : Curve → Curve
  | .line a b => .line b a
  | .quad a b c => .quad c b a
  | .cubic a b c d => .cubic d c b a
  | .conic a b w c => .conic c b w a

theorem curveAt_zero (c : Curve) : curveAt c 0 = curveStart c := by
  cases c <;> simp [curveAt, curveStart, lerp] <;>
    first
    | rfl
    | (constructor <;> ring)

theorem curveAt_one (c : Curve) : curveAt c 1 = curveEnd c := by
  cases c <;> simp [curveAt, curveEnd, lerp] <;>
    first
    | rfl
    | (constructor <;> ring)

/-- One stored drawing operation (`gskpathop`).  The points are kept
inline: in the C they are offsets into the contour's shared point buffer,
with consecutive operations sharing their junction point.  A conic stores
its weight the way the C stores it, as the `x` coordinate of an extra
buffer point (`pt[2]`). -/
inductive PathOp where
  | move (p : Point)
  | line (a b : Point)
  | quad (a b c : Point)
  | cubic (a b c d : Point)
  | conic (a b : Point) (wpt : Point) (c : Point)
  | close (a b : Point)

instance : Inhabited PathOp := ⟨.move ⟨0, 0⟩⟩

/-- First point of an operation. -/
def opStart : PathOp → Point
  | .move p => p
  | .line a _ => a
  | .quad a _ _ => a
  | .cubic a _ _ _ => a
  | .conic a _ _ _ => a
  | .close a _ => a

/-- Last point of an operation. -/
def opEnd : PathOp → Point
  | .move p => p
  | .line _ b => b
  | .quad _ _ c => c
  | .cubic _ _ _ d => d
  | .conic _ _ _ c => c
  | .close _ b => b

/-- The curve of an operation, `gsk_curve_init` on a pathop: a close is
measured as the line back to the contour start.  (`gsk_curve_init` is
never called on a move; the junk value for move keeps the function
total.) -/
def opCurve : PathOp → Curve
  | .move p => .line p p
  | .line a b => .line a b
  | .quad a b c => .quad a b c
  | .cubic a b c d => .cubic a b c d
  | .conic a b w c => .conic a b w.x c
  | .close a b => .line a b

/-- The points an operation contributes to the contour's shared point
buffer beyond the junction point it shares with its predecessor (a move,
the very first operation, contributes its single point). -/
def opContrib : PathOp → List Point
  | .move p => [p]
  | .line _ b => [b]
  | .quad _ b c => [b, c]
  | .cubic _ b c d => [b, c, d]
  | .conic _ b w c => [b, w, c]
  | .close _ b => [b]

/-- `GskStandardContour`: path flags (only the `GSK_PATH_CLOSED` bit is
relevant to the verified queries) plus the stored operations. -/
structure StdContour where
  closed : Bool
  ops : List PathOp

/-- The contour's shared point buffer `self->points`, reconstructed from
the inline operation points. -/
def pointsBuf (s : StdContour) : List Point :=
  s.ops.foldr (fun op acc => opContrib op ++ acc) []

/-- `self->points[0]`. -/
def firstStored (s : StdContour) : Point :=
  (pointsBuf s).headD ⟨0, 0⟩

/-- `self->points[self->n_points - 1]`. -/
def lastStored (s : StdContour) : Point :=
  (pointsBuf s).getLastD ⟨0, 0⟩

/-- Structural invariants of a standard contour (spec §3: the first
operation is always a move, operations chain through shared junction
points, a closed contour ends where it starts, conic weight points store
the weight in their x coordinate). -/
structure WF (s : StdContour) : Prop where
  ne : s.ops ≠ []
  head_move : ∃ p, s.ops.head? = some (.move p)
  contig : s.ops.Chain' (fun a b => opEnd a = opStart b)
  closed_back : s.closed = true →
    opEnd (s.ops.getLastD default) = opStart (s.ops.headD default)

theorem pointsBuf_ne (s : StdContour) (h : s.ops ≠ []) : pointsBuf s ≠ [] := by
  cases hops : s.ops with
  | nil => exact absurd hops h
  | cons op rest =>
      simp only [pointsBuf, hops, List.foldr_cons]
      cases op <;> simp [opContrib]

theorem opContrib_getLast (op : PathOp) :
    (opContrib op).getLastD default = opEnd op := by
  cases op <;> simp [opContrib, opEnd]

theorem opContrib_ne (op : PathOp) : opContrib op ≠ [] := by
  cases op <;> simp [opContrib]

theorem opContrib_getLast? (op : PathOp) :
    (opContrib op).getLast? = some (opEnd op) := by
  cases op <;> simp [opContrib, opEnd]

theorem contribFold_ne (l : List PathOp) (h : l ≠ []) :
    l.foldr (fun op acc => opContrib op ++ acc) [] ≠ [] := by
  cases l with
  | nil => exact absurd rfl h
  | cons op rest =>
      simp only [List.foldr_cons]
      have := opContrib_ne op
      cases hc : opContrib op <;> simp_all

theorem contribFold_getLast (l : List PathOp) (h : l ≠ []) :
    (l.foldr (fun op acc => opContrib op ++ acc) []).getLast?
      = some (opEnd (l.getLastD default)) := by
  induction l with
  | nil => exact absurd rfl h
  | cons op rest ih =>
      cases hrest : rest with
      | nil =>
          subst hrest
          simp [opContrib_getLast?]
      | cons op2 rest2 =>
          have hne : rest ≠ [] := by simp [hrest]
          subst hrest
          rw [List.foldr_cons, List.getLast?_append_of_ne_nil _ (contribFold_ne _ hne)]
          rw [ih hne]
          simp [List.getLastD_cons]

/-- The last buffer point is the end point of the last operation. -/
theorem lastStored_eq (s : StdContour) (h : s.ops ≠ []) :
    lastStored s = opEnd (s.ops.getLastD default) := by
  unfold lastStored pointsBuf
  rw [List.getLastD_eq_getLast?, contribFold_getLast s.ops h]
  rfl

/-- The first buffer point is the move's point. -/
theorem firstStored_eq (s : StdContour) (p : Point)
    (h : s.ops.head? = some (.move p)) : firstStored s = p := by
  cases hops : s.ops with
  | nil => simp [hops] at h
  | cons op rest =>
      rw [hops] at h
      simp only [List.head?_cons, Option.some.injEq] at h
      subst h
      simp [firstStored, pointsBuf, hops, opContrib]

theorem curveStart_opCurve (op : PathOp) : curveStart (opCurve op) = opStart op := by
  cases op <;> rfl

theorem curveEnd_opCurve (op : PathOp) : curveEnd (opCurve op) = opEnd op := by
  cases op <;> rfl

theorem getLastD_irrel {α : Type} (l : List α) (h : l ≠ []) (d₁ d₂ : α) :
    l.getLastD d₁ = l.getLastD d₂ := by
  cases l with
  | nil => exact absurd rfl h
  | cons a t => rw [List.getLastD_cons, List.getLastD_cons]

theorem getD_length_sub_one {α : Type} [Inhabited α] (l : List α) (h : l ≠ []) :
    l.getD (l.length - 1) default = l.getLastD default := by
  induction l with
  | nil => exact absurd rfl h
  | cons a t ih =>
      cases ht : t with
      | nil => rfl
      | cons b t2 =>
          subst ht
          have h2 : (b :: t2) ≠ [] := by simp
          have hlen : (a :: b :: t2).length - 1 = (b :: t2).length - 1 + 1 := by
            simp
          rw [hlen, List.getD_cons_succ, List.getLastD_cons, ih h2]
          exact getLastD_irrel _ h2 _ _

theorem getLastD_mem {α : Type} (l : List α) (h : l ≠ []) (d : α) :
    l.getLastD d ∈ l := by
  induction l with
  | nil => exact absurd rfl h
  | cons a t ih =>
      cases ht : t with
      | nil =>
          subst ht
          rw [List.getLastD_cons]
          exact List.mem_singleton.mpr rfl
      | cons b t2 =>
          subst ht
          rw [List.getLastD_cons, getLastD_irrel (b :: t2) (by simp) a d]
          exact List.mem_cons_of_mem _ (ih (by simp))

theorem findIdx?_none {α : Type} (p : α → Bool) (l : List α)
    (h : ∀ x ∈ l, p x = false) : l.findIdx? p = none :=
  List.findIdx?_eq_none_iff.mpr (fun x hx => h x hx)

/-- Reason tag reported by the curve primitive's decomposition,
`GskCurveLineReason`. -/
inductive GskCurveLineReason where
  | short
  | straight
deriving DecidableEq

instance : Inhabited GskCurveLineReason := ⟨.short⟩

/-- One flattened line piece as reported to the `gsk_curve_decompose`
callback: endpoints, the parametric sub-range of the originating curve,
and the reason tag. -/
structure Piece where
  from_point : Point
  to_point : Point
  from_progress : ℚ
  to_progress : ℚ
  reason : GskCurveLineReason

/-- `GskStandardContourMeasure`: one length-table entry.  The C field
`end` is a Lean keyword and is called `stop` here. -/
structure Measure where
  start : ℚ
  stop : ℚ
  start_progress : ℚ
  end_progress : ℚ
  reason : GskCurveLineReason
  start_point : Point
  end_point : Point
  op : Nat

instance : Inhabited Measure := ⟨⟨0, 0, 0, 0, .short, ⟨0, 0⟩, ⟨0, 0⟩, 0⟩⟩

/-- `gsk_standard_contour_measure_add_point` as a fold step: the state is
the table built so far plus the accumulated length (the C keeps the
invariant `measure.start = measure.end` between calls, so a single length
accumulator is the same state).  Zero-length pieces are dropped. -/
def gsk_standard_contour_measure_add_point (d : Dist) (opIdx : Nat)
    (st : List Measure × ℚ) (p : Piece) : List Measure × ℚ :=
  let seg_length := d p.from_point p.to_point
  if seg_length = 0 then st
  else
    (st.1 ++ [⟨st.2, st.2 + seg_length, p.from_progress, p.to_progress,
              p.reason, p.from_point, p.to_point, opIdx⟩],
     st.2 + seg_length)

/-- A decomposition oracle standing for the external `gsk_curve_decompose`
(tolerance-bounded flattening of one curve into line pieces). -/
def Decomp : Type := Curve → ℚ → List Piece

/-- `gsk_standard_contour_init_measure`: walks every operation from the
second onward (`for (i = 1; i < self->n_ops; i++)`), decomposes its curve,
and accumulates one length-table entry per nonzero-length piece.  Returns
the table and the total length `out_length`. -/
def gsk_standard_contour_init_measure (dec : Decomp) (d : Dist)
    (s : StdContour) (tolerance : ℚ) : List Measure × ℚ :=
  (List.range' 1 (s.ops.length - 1)).foldl
    (fun st i =>
      (dec (opCurve (s.ops.getD i default)) tolerance).foldl
        (gsk_standard_contour_measure_add_point d i) st)
    ([], 0)

/-- `gsk_standard_contour_find_measure` driving `g_array_binary_search`:
the comparator matches the entry with `start ≤ distance < end`.  The table
is sorted with disjoint ranges, so the match is unique and a first-match
scan computes the same index the binary search finds. -/
def findMeasure (arr : List Measure) (distance : ℚ) : Option Nat :=
  arr.findIdx? (fun m => decide (m.start ≤ distance ∧ distance < m.stop))

/-- `GskPathDirection`.  Modelled from the spec: the enum lives in the
external `gskpath.h`; its numeric values are `GSK_PATH_START = 0` and
`GSK_PATH_END = 1`. -/
inductive Direction where
  | pathStart
  | pathEnd
deriving DecidableEq

/-- Table index selected by `gsk_standard_contour_get_point` and friends:
the binary-search hit, or the last entry when the search misses. -/
def gpIndex (arr : List Measure) (distance : ℚ) : Nat :=
  (findMeasure arr distance).getD (arr.length - 1)

/-- Entry/progress selection of `gsk_standard_contour_get_point`: the hit
entry with its fractional progress, except that a query landing exactly on
an entry boundary with direction `GSK_PATH_START` retreats to the end of
the previous entry (wrapping to the last entry for a closed contour). -/
def gpSelect (s : StdContour) (arr : List Measure) (distance : ℚ)
    (direction : Direction) : Measure × ℚ :=
  if distance = (arr.getD (gpIndex arr distance) default).start ∧
      direction = .pathStart ∧ 0 < gpIndex arr distance then
    (arr.getD (gpIndex arr distance - 1) default, 1)
  else if distance = (arr.getD (gpIndex arr distance) default).start ∧
      direction = .pathStart ∧ gpIndex arr distance = 0 ∧ s.closed = true then
    (arr.getD (arr.length - 1) default, 1)
  else
    (arr.getD (gpIndex arr distance) default,
     (distance - (arr.getD (gpIndex arr distance) default).start) /
       ((arr.getD (gpIndex arr distance) default).stop -
        (arr.getD (gpIndex arr distance) default).start))

/-- `gsk_standard_contour_get_point`, position part.  (The returned
tangent requires a normalisation, i.e. a square root; no verified claim
needs the standard contour's tangent, so the model returns the position.)
An empty table asserts `distance == 0` in the C and returns `points[0]`;
otherwise the selected entry's fractional progress is mapped into the
originating operation's parametric range and the curve is evaluated
there. -/
def gsk_standard_contour_get_point (s : StdContour) (arr : List Measure)
    (distance : ℚ) (direction : Direction) : Point :=
  if arr.length = 0 then firstStored s
  else
    curveAt (opCurve (s.ops.getD (gpSelect s arr distance direction).1.op default))
      ((gpSelect s arr distance direction).1.start_progress +
       ((gpSelect s arr distance direction).1.end_progress -
        (gpSelect s arr distance direction).1.start_progress) *
       (gpSelect s arr distance direction).2)

/-- The pieces reported by one decomposition span the parametric range
`[t₀, t₁]` of curve `c` contiguously, with their endpoints on the curve
and all progresses inside `[0, 1]`. -/
def PiecesOK (c : Curve) : ℚ → List Piece → ℚ → Prop
  | t₀, [], t₁ => t₀ = t₁
  | t₀, p :: rest, t₁ =>
      p.from_progress = t₀ ∧ 0 ≤ t₀ ∧ t₀ ≤ p.to_progress ∧ p.to_progress ≤ 1 ∧
      p.from_point = curveAt c t₀ ∧ p.to_point = curveAt c p.to_progress ∧
      PiecesOK c p.to_progress rest t₁

/-- Modelled from the spec: the interface contract of the external
`gsk_curve_decompose` — a finite sequence of flattened line pieces
covering the whole parametric range `[0, 1]` contiguously, each piece
reported with its parametric sub-range and its endpoints on the curve. -/
def IsDecomposition (dec : Decomp) : Prop :=
  ∀ c tolerance, PiecesOK c 0 (dec c tolerance) 1

/-- The trivial one-piece decomposition: a concrete computable
`IsDecomposition` instance used by witnesses and counterexamples. -/
def dec1 : Decomp := fun c _ => [⟨curveAt c 0, curveAt c 1, 0, 1, .short⟩]

theorem isDec_dec1 : IsDecomposition dec1 := by
  intro c tolerance
  exact ⟨rfl, le_refl 0, by norm_num, le_refl 1, rfl, rfl, rfl⟩

/-- `Partition lo arr hi`: the entries of `arr` tile the arc-length range
from `lo` to `hi` contiguously — each entry starts where its predecessor
stopped, every entry has strictly positive length, the first starts at
`lo` and the last stops at `hi`. -/
def Partition : ℚ → List Measure → ℚ → Prop
  | lo, [], hi => lo = hi
  | lo, m :: rest, hi => m.start = lo ∧ m.start < m.stop ∧ Partition m.stop rest hi

/-- Validity of a single length-table entry against its contour: the
referenced operation index is in range (and never the leading move), the
parametric sub-range lies inside `[0, 1]`, and the stored endpoints are
the curve points of the stored progresses. -/
def EntryOK (s : StdContour) (e : Measure) : Prop :=
  1 ≤ e.op ∧ e.op < s.ops.length ∧
  0 ≤ e.start_progress ∧ e.start_progress ≤ e.end_progress ∧ e.end_progress ≤ 1 ∧
  e.start_point = curveAt (opCurve (s.ops.getD e.op default)) e.start_progress ∧
  e.end_point = curveAt (opCurve (s.ops.getD e.op default)) e.end_progress

/-- The start point of the first table entry, with fallback `fp` for an
empty table. -/
def headPt (fp : Point) (arr : List Measure) : Point :=
  ((arr.head?).map Measure.start_point).getD fp

/-- The end point of the last table entry, with fallback `fp`. -/
def lastPt (fp : Point) (arr : List Measure) : Point :=
  ((arr.getLast?).map Measure.end_point).getD fp

/-- Invariant carried through the length-table construction: the table
tiles `[0, len]`, its entries are valid, its first stored point is the
contour's first point `fp`, and its last stored point is the current
position `cur` along the contour. -/
def TableInv (s : StdContour) (fp cur : Point) (st : List Measure × ℚ) : Prop :=
  Partition 0 st.1 st.2 ∧ (∀ e ∈ st.1, EntryOK s e) ∧
  headPt fp st.1 = fp ∧ lastPt fp st.1 = cur

theorem partition_le (lo hi : ℚ) (arr : List Measure) (h : Partition lo arr hi) :
    lo ≤ hi ∧ ∀ e ∈ arr, lo ≤ e.start ∧ e.stop ≤ hi := by
  induction arr generalizing lo with
  | nil =>
      refine ⟨le_of_eq h, ?_⟩
      intro e he
      simp at he
  | cons m rest ih =>
      obtain ⟨h1, h2, h3⟩ := h
      obtain ⟨ih1, ih2⟩ := ih _ h3
      refine ⟨by linarith, ?_⟩
      intro e he
      rcases List.mem_cons.mp he with rfl | he2
      · exact ⟨le_of_eq h1.symm, by linarith⟩
      · have := ih2 e he2
        exact ⟨by linarith [this.1], this.2⟩

theorem partition_append (lo mid hi : ℚ) (a b : List Measure)
    (ha : Partition lo a mid) (hb : Partition mid b hi) :
    Partition lo (a ++ b) hi := by
  induction a generalizing lo with
  | nil =>
      have : lo = mid := ha
      rw [List.nil_append, this]
      exact hb
  | cons m rest ih =>
      obtain ⟨h1, h2, h3⟩ := ha
      exact ⟨h1, h2, ih _ h3⟩

theorem partition_last_stop (lo hi : ℚ) (arr : List Measure)
    (h : Partition lo arr hi) (e : Measure) (he : arr.getLast? = some e) :
    e.stop = hi := by
  induction arr generalizing lo with
  | nil => simp at he
  | cons m rest ih =>
      obtain ⟨h1, h2, h3⟩ := h
      cases hrest : rest with
      | nil =>
          subst hrest
          simp only [List.getLast?_singleton, Option.some.injEq] at he
          subst he
          exact h3
      | cons b t =>
          subst hrest
          rw [List.getLast?_cons_cons] at he
          exact ih _ h3 he

theorem getD_eq_get {α : Type} [Inhabited α] (l : List α) (n : Nat)
    (h : n < l.length) : l.getD n default = l.get ⟨n, h⟩ := by
  induction l generalizing n with
  | nil => simp at h
  | cons a t ih =>
      cases n with
      | zero => rfl
      | succ k =>
          rw [List.getD_cons_succ]
          exact ih k (by simpa using h)

theorem pieces_fold_inv (s : StdContour) (d : Dist) (hd : DistSpec d)
    (fp : Point) (i : Nat) (hi1 : 1 ≤ i) (hi2 : i < s.ops.length)
    (ps : List Piece) :
    ∀ (t₀ : ℚ) (t₁ : ℚ) (st : List Measure × ℚ),
      PiecesOK (opCurve (s.ops.getD i default)) t₀ ps t₁ →
      TableInv s fp (curveAt (opCurve (s.ops.getD i default)) t₀) st →
      TableInv s fp (curveAt (opCurve (s.ops.getD i default)) t₁)
        (ps.foldl (gsk_standard_contour_measure_add_point d i) st) := by
  induction ps with
  | nil =>
      intro t₀ t₁ st hps hst
      have ht : t₀ = t₁ := hps
      rw [List.foldl_nil, ← ht]
      exact hst
  | cons p rest ih =>
      intro t₀ t₁ st hps hst
      obtain ⟨hfp2, ht0, hle, hle1, hfrom, hto, hrest⟩ := hps
      rw [List.foldl_cons]
      by_cases hseg : d p.from_point p.to_point = 0
      · have heq : p.from_point = p.to_point := (hd _ _).2.1.mp hseg
        have hcur : curveAt (opCurve (s.ops.getD i default)) t₀
            = curveAt (opCurve (s.ops.getD i default)) p.to_progress := by
          rw [← hfrom, ← hto]; exact heq
        have hstep : gsk_standard_contour_measure_add_point d i st p = st := by
          simp [gsk_standard_contour_measure_add_point, hseg]
        rw [hstep]
        exact ih _ _ _ hrest (hcur ▸ hst)
      · have hpos : 0 < d p.from_point p.to_point :=
          lt_of_le_of_ne (hd _ _).1 (Ne.symm hseg)
        obtain ⟨hP, hE, hH, hL⟩ := hst
        have hstep : gsk_standard_contour_measure_add_point d i st p =
            (st.1 ++ [⟨st.2, st.2 + d p.from_point p.to_point,
                       p.from_progress, p.to_progress, p.reason,
                       p.from_point, p.to_point, i⟩],
             st.2 + d p.from_point p.to_point) := by
          simp [gsk_standard_contour_measure_add_point, hseg]
        rw [hstep]
        refine ih _ _ _ hrest ⟨?_, ?_, ?_, ?_⟩
        · refine partition_append 0 st.2 _ st.1 _ hP ⟨rfl, ?_, rfl⟩
          simpa using hpos
        · intro e he
          rcases List.mem_append.mp he with h1 | h2
          · exact hE e h1
          · have : e = ⟨st.2, st.2 + d p.from_point p.to_point,
                p.from_progress, p.to_progress, p.reason,
                p.from_point, p.to_point, i⟩ := by simpa using h2
            subst this
            refine ⟨hi1, hi2, ?_, ?_, hle1, ?_, hto⟩
            · simpa [hfp2] using ht0
            · simpa [hfp2] using hle
            · rw [hfrom, hfp2]
        · cases hst1 : st.1 with
          | nil =>
              rw [hst1] at hL
              have hfpcur : fp = curveAt (opCurve (s.ops.getD i default)) t₀ := hL
              simp only [List.nil_append, headPt, List.head?_cons,
                Option.map_some', Option.getD_some]
              rw [hfrom]
              exact hfpcur.symm
          | cons x xs =>
              rw [hst1] at hH
              simpa [headPt] using hH
        · simp only [lastPt, List.getLast?_concat, Option.map_some', Option.getD_some]
          rw [hto]

/-- The index list `l` walks the contour's operations contiguously from
position `cur` to position `cur'`, staying inside bounds (and past the
initial move). -/
def IdxOK (s : StdContour) : Point → List Nat → Point → Prop
  | cur, [], cur' => cur = cur'
  | cur, i :: rest, cur' =>
      1 ≤ i ∧ i < s.ops.length ∧ opStart (s.ops.getD i default) = cur ∧
      IdxOK s (opEnd (s.ops.getD i default)) rest cur'

theorem ops_fold_inv (s : StdContour) (dec : Decomp) (d : Dist) (tolerance : ℚ)
    (hdec : IsDecomposition dec) (hd : DistSpec d) (fp : Point)
    (l : List Nat) :
    ∀ (cur cur' : Point) (st : List Measure × ℚ),
      IdxOK s cur l cur' → TableInv s fp cur st →
      TableInv s fp cur'
        (l.foldl (fun st i =>
          (dec (opCurve (s.ops.getD i default)) tolerance).foldl
            (gsk_standard_contour_measure_add_point d i) st) st) := by
  induction l with
  | nil =>
      intro cur cur' st hidx hst
      have : cur = cur' := hidx
      rw [List.foldl_nil, ← this]
      exact hst
  | cons i rest ih =>
      intro cur cur' st hidx hst
      obtain ⟨hi1, hi2, hstart, hrest⟩ := hidx
      rw [List.foldl_cons]
      have hst0 : TableInv s fp
          (curveAt (opCurve (s.ops.getD i default)) 0) st := by
        rw [curveAt_zero, curveStart_opCurve, hstart]
        exact hst
      have hst1 := pieces_fold_inv s d hd fp i hi1 hi2 _ 0 1 st
        (hdec (opCurve (s.ops.getD i default)) tolerance) hst0
      rw [curveAt_one, curveEnd_opCurve] at hst1
      exact ih _ _ _ hrest hst1

theorem idxOK_range (s : StdContour)
    (hc : s.ops.Chain' (fun a b => opEnd a = opStart b)) :
    ∀ (n k : Nat), k + n = s.ops.length → 1 ≤ k →
      IdxOK s
        (if h : k < s.ops.length then opStart (s.ops.getD k default)
         else opEnd (s.ops.getLastD default))
        (List.range' k n) (opEnd (s.ops.getLastD default)) := by
  intro n
  induction n with
  | zero =>
      intro k hk hk1
      have : ¬ k < s.ops.length := by omega
      rw [dif_neg this]
      rfl
  | succ m ih =>
      intro k hk hk1
      have hklt : k < s.ops.length := by omega
      rw [dif_pos hklt, List.range'_succ]
      refine ⟨hk1, hklt, rfl, ?_⟩
      have hnext := ih (k + 1) (by omega) (by omega)
      by_cases hk2 : k + 1 < s.ops.length
      · rw [dif_pos hk2] at hnext
        have hchain : opEnd (s.ops.getD k default)
            = opStart (s.ops.getD (k + 1) default) := by
          rw [getD_eq_get s.ops k hklt, getD_eq_get s.ops (k + 1) hk2]
          exact List.chain'_iff_get.mp hc k (by omega)
        rw [hchain]
        exact hnext
      · rw [dif_neg hk2] at hnext
        have hke : k = s.ops.length - 1 := by omega
        have hne : s.ops ≠ [] := by
          intro h0
          rw [h0] at hklt
          simp at hklt
        have : s.ops.getD k default = s.ops.getLastD default := by
          rw [hke]
          exact getD_length_sub_one s.ops hne
        rw [this]
        exact hnext

/-- Master invariant of `gsk_standard_contour_init_measure`: the length
table tiles `[0, out_length]` with valid entries, starts at the contour's
first stored point, and ends at the end point of the last operation. -/
theorem initMeasure_inv (dec : Decomp) (d : Dist) (s : StdContour)
    (tolerance : ℚ) (hdec : IsDecomposition dec) (hd : DistSpec d)
    (hWF : WF s) :
    TableInv s (firstStored s) (opEnd (s.ops.getLastD default))
      (gsk_standard_contour_init_measure dec d s tolerance) := by
  obtain ⟨p, hp⟩ := hWF.head_move
  have hfp : firstStored s = p := firstStored_eq s p hp
  have hlen1 : 1 ≤ s.ops.length := by
    have := hWF.ne
    cases h : s.ops with
    | nil => exact absurd h this
    | cons a t => simp [h]
  have hinit : TableInv s (firstStored s) (firstStored s) ([], 0) :=
    ⟨rfl, by simp, rfl, rfl⟩
  have hidx := idxOK_range s hWF.contig (s.ops.length - 1) 1 (by omega) (le_refl 1)
  unfold gsk_standard_contour_init_measure
  by_cases h1 : 1 < s.ops.length
  · rw [dif_pos h1] at hidx
    have hcur : opStart (s.ops.getD 1 default) = firstStored s := by
      cases hops : s.ops with
      | nil => exact absurd hops hWF.ne
      | cons op rest =>
          rw [hops] at hp
          simp only [List.head?_cons, Option.some.injEq] at hp
          have hrest_ne : rest ≠ [] := by
            intro h0
            rw [hops, h0] at h1
            simp at h1
          obtain ⟨r0, rest2, hrest⟩ := List.exists_cons_of_ne_nil hrest_ne
          subst hrest
          have hcc := hWF.contig
          rw [hops] at hcc
          have hlink := (List.chain'_cons.mp hcc).1
          show opStart r0 = firstStored s
          rw [← hlink, hp, hfp]
          rfl
    rw [hcur] at hidx
    exact ops_fold_inv s dec d tolerance hdec hd (firstStored s) _ _ _ _ hidx hinit
  · rw [dif_neg h1] at hidx
    have hcur : opEnd (s.ops.getLastD default) = firstStored s := by
      cases hops : s.ops with
      | nil => exact absurd hops hWF.ne
      | cons op rest =>
          rw [hops] at hp
          simp only [List.head?_cons, Option.some.injEq] at hp
          have hrest_nil : rest = [] := by
            cases rest with
            | nil => rfl
            | cons r0 rest2 =>
                rw [hops] at h1
                refine absurd ?_ h1
                simp only [List.length_cons]
                omega
          subst hrest_nil
          show opEnd ([op].getLastD default) = firstStored s
          rw [hp, hfp]
          rfl
    nth_rewrite 1 [hcur] at hidx
    exact ops_fold_inv s dec d tolerance hdec hd (firstStored s) _ _ _ _ hidx hinit

theorem getLast?_eq {α : Type} [Inhabited α] (l : List α) (h : l ≠ []) :
    l.getLast? = some (l.getLastD default) := by
  induction l with
  | nil => exact absurd rfl h
  | cons a t ih =>
      cases ht : t with
      | nil => rfl
      | cons b t2 =>
          subst ht
          have h2 : (b :: t2) ≠ [] := by simp
          have hswap : (a :: b :: t2).getLastD default
              = (b :: t2).getLastD default := by
            rw [List.getLastD_cons]
            exact getLastD_irrel _ h2 a default
          rw [List.getLast?_cons_cons, ih h2, ← hswap]

theorem lastPt_eq (fp : Point) (arr : List Measure) (h : arr ≠ []) :
    lastPt fp arr = (arr.getLastD default).end_point := by
  unfold lastPt
  rw [getLast?_eq arr h]
  rfl

theorem partition_mem_lt (lo hi : ℚ) (arr : List Measure)
    (h : Partition lo arr hi) : ∀ e ∈ arr, e.start < e.stop := by
  induction arr generalizing lo with
  | nil => intro e he; simp at he
  | cons m rest ih =>
      obtain ⟨h1, h2, h3⟩ := h
      intro e he
      rcases List.mem_cons.mp he with rfl | he2
      · exact h2
      · exact ih _ h3 e he2

theorem opStart_headD_of_move (s : StdContour) (p : Point)
    (hp : s.ops.head? = some (.move p)) :
    opStart (s.ops.headD default) = p := by
  cases hops : s.ops with
  | nil => rw [hops] at hp; simp at hp
  | cons op rest =>
      rw [hops] at hp
      simp only [List.head?_cons, Option.some.injEq] at hp
      rw [hp]
      rfl

/-- C3: For every Standard Contour with at least one point and any
measurement context built by `init_measure(tolerance)` reporting total
length `L`, `get_point` at distance 0 returns the first stored point of
the contour and `get_point` at distance `L` returns the last stored
point.  (The external decomposition and distance primitives are
quantified through their interface contracts.) -/
theorem claim_C3_endpoint_queries (dec : Decomp) (d : Dist) (s : StdContour)
    (tolerance : ℚ) (direction : Direction)
    (hdec : IsDecomposition dec) (hd : DistSpec d) (hWF : WF s) :
    gsk_standard_contour_get_point s
        (gsk_standard_contour_init_measure dec d s tolerance).1 0 direction
      = firstStored s ∧
    gsk_standard_contour_get_point s
        (gsk_standard_contour_init_measure dec d s tolerance).1
        (gsk_standard_contour_init_measure dec d s tolerance).2 direction
      = lastStored s := by
  obtain ⟨hP, hE, hH, hL⟩ := initMeasure_inv dec d s tolerance hdec hd hWF
  have hlast : lastStored s = opEnd (s.ops.getLastD default) :=
    lastStored_eq s hWF.ne
  cases hAe : (gsk_standard_contour_init_measure dec d s tolerance).1 with
  | nil =>
      rw [hAe] at hL
      constructor
      · simp [gsk_standard_contour_get_point]
      · simp only [gsk_standard_contour_get_point, if_pos rfl]
        rw [hlast, ← hL]
        rfl
  | cons m rest =>
      rw [hAe] at hP hE hH hL
      have hAne : m :: rest ≠ [] := by simp
      have hAlen : ¬((m :: rest).length = 0) := by simp
      obtain ⟨hm0, hmlt, hPrest⟩ := hP
      have hfind0 : findMeasure (m :: rest) 0 = some 0 := by
        unfold findMeasure
        rw [List.findIdx?_cons]
        have hc : (decide (m.start ≤ 0 ∧ 0 < m.stop)) = true := by
          rw [decide_eq_true_iff]
          exact ⟨le_of_eq hm0, by linarith⟩
        rw [hc]
        simp
      have hidx0 : gpIndex (m :: rest) 0 = 0 := by
        unfold gpIndex
        rw [hfind0]
        rfl
      have hEm := hE m (by simp)
      have hfirst : m.start_point = firstStored s := hH
      -- the retreat target for the closed wrap and for the L query
      have hgetlast : (m :: rest).getD ((m :: rest).length - 1) default
          = (m :: rest).getLastD default := getD_length_sub_one _ hAne
      have hElast := hE ((m :: rest).getLastD default) (getLastD_mem _ hAne _)
      have hlastPt : ((m :: rest).getLastD default).end_point
          = opEnd (s.ops.getLastD default) := by
        rw [← lastPt_eq (firstStored s) (m :: rest) hAne]
        exact hL
      constructor
      · -- distance 0
        have hsel_plain : ∀ dir2 : Direction,
            gpSelect s (m :: rest) 0 dir2 = (m, (0 - m.start) / (m.stop - m.start)) →
            gsk_standard_contour_get_point s (m :: rest) 0 dir2 = firstStored s := by
          intro dir2 hsel
          unfold gsk_standard_contour_get_point
          rw [if_neg hAlen, hsel]
          simp only [hm0, sub_zero, zero_div, mul_zero, add_zero]
          rw [← hEm.2.2.2.2.2.1]
          exact hfirst
        cases direction with
        | pathEnd =>
            refine hsel_plain _ ?_
            unfold gpSelect
            rw [hidx0]
            rw [if_neg (by simp)]
            rw [if_neg (by simp)]
            rfl
        | pathStart =>
            cases hcl : s.closed with
            | false =>
                refine hsel_plain _ ?_
                unfold gpSelect
                rw [hidx0]
                rw [if_neg (by simp)]
                rw [if_neg (by simp [hcl])]
                rfl
            | true =>
                have hsel : gpSelect s (m :: rest) 0 .pathStart
                    = ((m :: rest).getD ((m :: rest).length - 1) default, 1) := by
                  unfold gpSelect
                  rw [hidx0]
                  rw [if_neg (by simp)]
                  rw [if_pos ⟨by simpa using hm0.symm, rfl, rfl, hcl⟩]
                unfold gsk_standard_contour_get_point
                rw [if_neg hAlen, hsel]
                simp only [mul_one, add_sub_cancel, hgetlast]
                rw [← hElast.2.2.2.2.2.2]
                rw [hlastPt]
                obtain ⟨p, hp⟩ := hWF.head_move
                rw [hWF.closed_back hcl, opStart_headD_of_move s p hp,
                  firstStored_eq s p hp]
      · -- distance L
        have hstops := (partition_le 0 _ (m :: rest) ⟨hm0, hmlt, hPrest⟩).2
        have hfindL : findMeasure (m :: rest)
            (gsk_standard_contour_init_measure dec d s tolerance).2 = none := by
          apply findIdx?_none
          intro e he
          rw [decide_eq_false_iff_not]
          rintro ⟨hh1, hh2⟩
          have := (hstops e he).2
          linarith
        have hidxL : gpIndex (m :: rest)
            (gsk_standard_contour_init_measure dec d s tolerance).2
            = (m :: rest).length - 1 := by
          unfold gpIndex
          rw [hfindL]
          rfl
        have hstopL : ((m :: rest).getLastD default).stop
            = (gsk_standard_contour_init_measure dec d s tolerance).2 :=
          partition_last_stop 0 _ (m :: rest) ⟨hm0, hmlt, hPrest⟩ _
            (getLast?_eq _ hAne)
        have hltL : ((m :: rest).getLastD default).start
            < ((m :: rest).getLastD default).stop :=
          partition_mem_lt 0 _ (m :: rest) ⟨hm0, hmlt, hPrest⟩ _
            (getLastD_mem _ hAne _)
        have hneL : (gsk_standard_contour_init_measure dec d s tolerance).2
            ≠ ((m :: rest).getD ((m :: rest).length - 1) default).start := by
          rw [hgetlast, ← hstopL]
          exact (ne_of_gt hltL)
        have hsel : gpSelect s (m :: rest)
            (gsk_standard_contour_init_measure dec d s tolerance).2 direction
            = ((m :: rest).getD ((m :: rest).length - 1) default,
               ((gsk_standard_contour_init_measure dec d s tolerance).2 -
                ((m :: rest).getD ((m :: rest).length - 1) default).start) /
               (((m :: rest).getD ((m :: rest).length - 1) default).stop -
                ((m :: rest).getD ((m :: rest).length - 1) default).start)) := by
          unfold gpSelect
          rw [hidxL]
          rw [if_neg (by rintro ⟨hh, _⟩; exact hneL hh)]
          rw [if_neg (by rintro ⟨hh, _⟩; exact hneL hh)]
        unfold gsk_standard_contour_get_point
        rw [if_neg hAlen, hsel]
        simp only [hgetlast]
        rw [← hstopL]
        rw [div_self (by linarith)]
        simp only [mul_one, add_sub_cancel]
        rw [← hElast.2.2.2.2.2.2, hlastPt, hlast]

/-- C9: For every Standard Contour and tolerance, the length table built
by `init_measure` contains no zero-length entry, its entries form a
contiguous strictly increasing partition of arc length starting at 0 and
ending at the returned `out_length`, and each entry references a valid
operation index (never the leading move) with parametric sub-range inside
`[0, 1]`. -/
theorem claim_C9_table_invariants (dec : Decomp) (d : Dist) (s : StdContour)
    (tolerance : ℚ) (hdec : IsDecomposition dec) (hd : DistSpec d)
    (hWF : WF s) :
    Partition 0 (gsk_standard_contour_init_measure dec d s tolerance).1
      (gsk_standard_contour_init_measure dec d s tolerance).2 ∧
    ∀ e ∈ (gsk_standard_contour_init_measure dec d s tolerance).1,
      e.start < e.stop ∧ 1 ≤ e.op ∧ e.op < s.ops.length ∧
      0 ≤ e.start_progress ∧ e.start_progress ≤ e.end_progress ∧
      e.end_progress ≤ 1 := by
  obtain ⟨hP, hE, _, _⟩ := initMeasure_inv dec d s tolerance hdec hd hWF
  refine ⟨hP, ?_⟩
  intro e he
  obtain ⟨h1, h2, h3, h4, h5, _, _⟩ := hE e he
  exact ⟨partition_mem_lt 0 _ _ hP e he, h1, h2, h3, h4, h5⟩

theorem chain3 {R : PathOp → PathOp → Prop} (a b c : PathOp)
    (h1 : R a b) (h2 : R b c) : List.Chain' R [a, b, c] :=
  List.chain'_cons.mpr ⟨h1, List.chain'_cons.mpr ⟨h2, List.chain'_singleton _⟩⟩

/-- Concrete open polyline `M 0,0 L 3,0 L 3,4` used by witnesses. -/
def elbowContour : StdContour :=
  ⟨false, [.move ⟨0, 0⟩, .line ⟨0, 0⟩ ⟨3, 0⟩, .line ⟨3, 0⟩ ⟨3, 4⟩]⟩

theorem wf_elbow : WF elbowContour :=
  ⟨by simp [elbowContour], ⟨⟨0, 0⟩, rfl⟩, chain3 _ _ _ rfl rfl,
   by intro h; simp [elbowContour] at h⟩

/-- Witness for C9: the hypotheses hold for the one-piece decomposition,
the taxicab metric and a concrete polyline, whose table evaluates to a
two-entry partition of total length 7. -/
theorem claim_C9_witness :
    IsDecomposition dec1 ∧ DistSpec dist1 ∧ WF elbowContour ∧
    (gsk_standard_contour_init_measure dec1 dist1 elbowContour 1).2 = 7 ∧
    (Partition 0 (gsk_standard_contour_init_measure dec1 dist1 elbowContour 1).1
       (gsk_standard_contour_init_measure dec1 dist1 elbowContour 1).2 ∧
     ∀ e ∈ (gsk_standard_contour_init_measure dec1 dist1 elbowContour 1).1,
       e.start < e.stop ∧ 1 ≤ e.op ∧ e.op < elbowContour.ops.length ∧
       0 ≤ e.start_progress ∧ e.start_progress ≤ e.end_progress ∧
       e.end_progress ≤ 1) :=
  ⟨isDec_dec1, distSpec_dist1, wf_elbow,
   by norm_num [gsk_standard_contour_init_measure,
     gsk_standard_contour_measure_add_point, dec1, dist1, elbowContour,
     List.range', opCurve, curveAt, lerp, List.getD_cons_succ,
     List.getD_cons_zero],
   claim_C9_table_invariants dec1 dist1 elbowContour 1 isDec_dec1
     distSpec_dist1 wf_elbow⟩

/-- Concrete closed triangle-like contour `M 0,0 L 4,0 Z` used by
witnesses. -/
def triContour : StdContour :=
  ⟨true, [.move ⟨0, 0⟩, .line ⟨0, 0⟩ ⟨4, 0⟩, .close ⟨4, 0⟩ ⟨0, 0⟩]⟩

theorem wf_tri : WF triContour :=
  ⟨by simp [triContour], ⟨⟨0, 0⟩, rfl⟩, chain3 _ _ _ rfl rfl, fun _ => rfl⟩

/-- Witness for C3: concrete evaluation on the closed contour
`M 0,0 L 4,0 Z` with total length 8 under the taxicab metric. -/
theorem claim_C3_witness :
    IsDecomposition dec1 ∧ DistSpec dist1 ∧ WF triContour ∧
    (gsk_standard_contour_init_measure dec1 dist1 triContour 1).2 = 8 ∧
    (gsk_standard_contour_get_point triContour
        (gsk_standard_contour_init_measure dec1 dist1 triContour 1).1 0 .pathEnd
      = firstStored triContour ∧
     gsk_standard_contour_get_point triContour
        (gsk_standard_contour_init_measure dec1 dist1 triContour 1).1
        (gsk_standard_contour_init_measure dec1 dist1 triContour 1).2 .pathEnd
      = lastStored triContour) :=
  ⟨isDec_dec1, distSpec_dist1, wf_tri,
   by norm_num [gsk_standard_contour_init_measure,
     gsk_standard_contour_measure_add_point, dec1, dist1, triContour,
     List.range', opCurve, curveAt, lerp, List.getD_cons_succ,
     List.getD_cons_zero],
   claim_C3_endpoint_queries dec1 dist1 triContour 1 .pathEnd isDec_dec1
     distSpec_dist1 wf_tri⟩

/-- `graphene_rect_t` with exact coordinates. -/
structure GRect where
  x : ℚ
  y : ℚ
  w : ℚ
  h : ℚ

/-- `GskRectContour`: `(x, y, width, height)`; width/height may be
negative (encoding traversal direction). -/
structure RectContour where
  x : ℚ
  y : ℚ
  width : ℚ
  height : ℚ

/-- `rect_add_point`: grow a bounding rectangle to cover one point, first
in x then in y, exactly as the C updates the fields. -/
def rect_add_point (r : GRect) (p : Point) : GRect :=
  let r1 : GRect :=
    if p.x < r.x then ⟨p.x, r.y, r.w + (r.x - p.x), r.h⟩
    else if p.x > r.x + r.w then ⟨r.x, r.y, p.x - r.x, r.h⟩
    else r
  if p.y < r1.y then ⟨r1.x, p.y, r1.w, r1.h + (r1.y - p.y)⟩
  else if p.y > r1.y + r1.h then ⟨r1.x, r1.y, r1.w, p.y - r1.y⟩
  else r1

/-- `gsk_standard_contour_get_bounds`: accumulate the bounding rectangle
over all stored points; report no bounds (`FALSE`, here `none`) when the
contour has no points or the accumulated width or height is not strictly
positive. -/
def gsk_standard_contour_get_bounds (s : StdContour) : Option GRect :=
  match pointsBuf s with
  | [] => none
  | p :: rest =>
      let b := rest.foldl rect_add_point ⟨p.x, p.y, 0, 0⟩
      if 0 < b.w ∧ 0 < b.h then some b else none

/-- `gsk_rect_contour_get_bounds`: always returns `TRUE` with the raw
rectangle, even when width or height is zero. -/
def gsk_rect_contour_get_bounds (r : RectContour) : Option GRect :=
  some ⟨r.x, r.y, r.width, r.height⟩

/-- C8 counterexample: the claim says that in particular a Rect contour
with zero width reports "no bounds"; the code's
`gsk_rect_contour_get_bounds` unconditionally returns `TRUE` with the
degenerate rectangle. -/
theorem claim_C8_counterexample :
    gsk_rect_contour_get_bounds ⟨0, 0, 0, 5⟩ = some ⟨0, 0, 0, 5⟩ ∧
    gsk_rect_contour_get_bounds ⟨0, 0, 0, 5⟩ ≠ none :=
  ⟨rfl, by simp [gsk_rect_contour_get_bounds]⟩

/-- C8 (amended): the Standard Contour's `get_bounds` never reports a
rectangle with zero (or negative) width or height — a degenerate
accumulated bound yields the explicit "no bounds" result — while the Rect
variant's `get_bounds` always reports its raw rectangle, degenerate or
not. -/
theorem claim_C8_amended :
    (∀ (s : StdContour) (b : GRect),
      gsk_standard_contour_get_bounds s = some b → 0 < b.w ∧ 0 < b.h) ∧
    (∀ r : RectContour,
      gsk_rect_contour_get_bounds r = some ⟨r.x, r.y, r.width, r.height⟩) := by
  constructor
  · intro s b hb
    unfold gsk_standard_contour_get_bounds at hb
    cases hpb : pointsBuf s with
    | nil => rw [hpb] at hb; simp at hb
    | cons p rest =>
        rw [hpb] at hb
        simp only at hb
        by_cases hc : 0 < (rest.foldl rect_add_point ⟨p.x, p.y, 0, 0⟩).w ∧
            0 < (rest.foldl rect_add_point ⟨p.x, p.y, 0, 0⟩).h
        · rw [if_pos hc] at hb
          cases hb
          exact hc
        · rw [if_neg hc] at hb
          simp at hb
  · intro r
    rfl

/-- Closed unit square contour used as the C8 witness. -/
def squareContour : StdContour :=
  ⟨true, [.move ⟨0, 0⟩, .line ⟨0, 0⟩ ⟨1, 0⟩, .line ⟨1, 0⟩ ⟨1, 1⟩,
          .line ⟨1, 1⟩ ⟨0, 1⟩, .close ⟨0, 1⟩ ⟨0, 0⟩]⟩

/-- Witness for C8 (amended): the unit square's accumulated bounds are
the strictly positive rectangle (0,0,1,1), and the theorem applies. -/
theorem claim_C8_witness :
    gsk_standard_contour_get_bounds squareContour = some ⟨0, 0, 1, 1⟩ ∧
    ((0 : ℚ) < 1 ∧ (0 : ℚ) < 1) :=
  have hb : gsk_standard_contour_get_bounds squareContour = some ⟨0, 0, 1, 1⟩ := by
    norm_num [gsk_standard_contour_get_bounds, squareContour, pointsBuf,
      opContrib, rect_add_point]
  ⟨hb, by
    have := claim_C8_amended.1 squareContour ⟨0, 0, 1, 1⟩ hb
    simpa using this⟩

/-- `gsk_rect_contour_init_measure`: out_length is the perimeter of the
absolute-value rectangle; the returned measure data is `NULL` (no length
table). -/
def gsk_rect_contour_init_measure (r : RectContour) (tolerance : ℚ) :
    Option (List Measure) × ℚ :=
  (none, 2 * |r.width| + 2 * |r.height|)

/-- C10: for every Rect contour (including negative width/height) and
every tolerance, `init_measure` reports total length
`2·|width| + 2·|height|` and returns an empty measurement context
(`NULL`). -/
theorem claim_C10_rect_measure (r : RectContour) (tolerance : ℚ) :
    gsk_rect_contour_init_measure r tolerance
      = (none, 2 * |r.width| + 2 * |r.height|) := rfl

/-- `GskCircleContour`: center, radius, start/end angle in degrees with
`|start_angle - end_angle| ≤ 360`. -/
structure CircleContour where
  center : Point
  radius : ℚ
  start_angle : ℚ
  end_angle : ℚ

/-- Modelled from the spec: the external Path Builder (`GskPathBuilder`).
It accumulates drawing operations, tracking the current point and the
contour's start point; a close records the line back to the start. -/
structure Builder where
  start : Point
  cur : Point
  ops : List PathOp

def Builder.empty : Builder := ⟨⟨0, 0⟩, ⟨0, 0⟩, []⟩

def Builder.moveTo (b : Builder) (p : Point) : Builder :=
  ⟨p, p, b.ops ++ [.move p]⟩

def Builder.lineTo (b : Builder) (p : Point) : Builder :=
  ⟨b.start, p, b.ops ++ [.line b.cur p]⟩

def Builder.quadTo (b : Builder) (q p : Point) : Builder :=
  ⟨b.start, p, b.ops ++ [.quad b.cur q p]⟩

def Builder.cubicTo (b : Builder) (c1 c2 p : Point) : Builder :=
  ⟨b.start, p, b.ops ++ [.cubic b.cur c1 c2 p]⟩

/-- The builder stores a conic's weight as the x coordinate of an extra
point, the way the standard contour stores it. -/
def Builder.conicTo (b : Builder) (q p : Point) (w : ℚ) : Builder :=
  ⟨b.start, p, b.ops ++ [.conic b.cur q ⟨w, 0⟩ p]⟩

def Builder.close (b : Builder) : Builder :=
  ⟨b.start, b.start, b.ops ++ [.close b.cur b.start]⟩

/-- `gsk_curve_builder_to`: emit one curve through the builder. -/
def Builder.curveTo (b : Builder) (c : Curve) : Builder :=
  match c with
  | .line _ p => b.lineTo p
  | .quad _ q p => b.quadTo q p
  | .cubic _ c1 c2 p => b.cubicTo c1 c2 p
  | .conic _ q w p => b.conicTo q p w

/-- `GskRoundedRect`: bounds plus four corner sizes (width, height per
corner, in the order top-left, top-right, bottom-right, bottom-left). -/
structure RoundedRect where
  x : ℚ
  y : ℚ
  w : ℚ
  h : ℚ
  tlw : ℚ
  tlh : ℚ
  trw : ℚ
  trh : ℚ
  brw : ℚ
  brh : ℚ
  blw : ℚ
  blh : ℚ

/-- glib `CLAMP (x, low, high)`. -/
def CLAMP (x lo hi : ℚ) : ℚ := if x > hi then hi else if x < lo then lo else x

/-- `copysignf (1.0, q)` (`ℚ` has no negative zero). -/
def csign (q : ℚ) : ℚ := if q < 0 then -1 else 1

/-- Result record of `gsk_rect_contour_get_closest_point`: offset,
position, distance and the (unnormalised, axis-aligned) tangent. -/
structure RectClosest where
  offset : ℚ
  pos : Point
  distance : ℚ
  tangent : Point

/-- Unit-square coordinates of the query point relative to the rect,
clamped onto the square (`t.x`, `t.y` after the first block of
`gsk_rect_contour_get_closest_point`). -/
def rectT (r : RectContour) (point : Point) : ℚ × ℚ :=
  (if r.width ≠ 0 then CLAMP ((point.x - r.x) / r.width) 0 1 else 0,
   if r.height ≠ 0 then CLAMP ((point.y - r.y) / r.height) 0 1 else 0)

/-- Interior snapping of the clamped coordinates onto the nearest edge,
with the deterministic tie-breaking rule of the C code (round 0.5 down in
x, up in y; on a full tie prefer top, then right, then bottom). -/
def rectSnap (r : RectContour) (t : ℚ × ℚ) : ℚ × ℚ :=
  if 0 < t.1 ∧ t.1 < 1 ∧ 0 < t.2 ∧ t.2 < 1 then
    if min t.1 (1 - t.1) * |r.width| - min t.2 (1 - t.2) * |r.height| < 0 then
      (((⌈t.1 - 1 / 2⌉ : ℤ) : ℚ), t.2)
    else if 0 < min t.1 (1 - t.1) * |r.width| - min t.2 (1 - t.2) * |r.height| then
      (t.1, ((round t.2 : ℤ) : ℚ))
    else if t.2 ≤ 1 - t.2 then (t.1, 0)
    else if 1 - t.1 ≤ t.1 then (1, t.2)
    else (t.1, 1)
  else t

/-- The snapped coordinates with the final "do not let -0 confuse us"
absolute values applied. -/
def rectTsnapped (r : RectContour) (point : Point) : ℚ × ℚ :=
  (|(rectSnap r (rectT r point)).1|, |(rectSnap r (rectT r point)).2|)

/-- The reported closest position. -/
def rectClosestPos (r : RectContour) (point : Point) : Point :=
  ⟨r.x + (rectTsnapped r point).1 * r.width,
   r.y + (rectTsnapped r point).2 * r.height⟩

/-- The reported arc-length offset (`out_offset` expression). -/
def rectOffset (r : RectContour) (t : ℚ × ℚ) : ℚ :=
  (if t.1 = 0 ∧ (0 < t.2 ∧ r.width ≠ 0) then 2 - t.2 else t.2) * |r.height| +
  (if t.2 = 1 ∨ (0 < t.2 ∧ t.1 = 0) then 2 - t.1 else t.1) * |r.width|

/-- The reported tangent (`out_tangent` if-chain; the final junk value
covers the unreachable fall-through where the C leaves it unset). -/
def rectTangent (r : RectContour) (t : ℚ × ℚ) : Point :=
  if t.2 = 0 ∧ t.1 < 1 then ⟨csign r.width, 0⟩
  else if t.1 = 0 then ⟨0, -(csign r.height)⟩
  else if t.2 = 1 then ⟨-(csign r.width), 0⟩
  else if t.1 = 1 then ⟨0, csign r.height⟩
  else ⟨0, 0⟩

/-- `gsk_rect_contour_get_closest_point`: project the query onto the unit
square, snap to the nearest edge, and report position, distance, offset
and tangent — failing when the distance exceeds the threshold. -/
def gsk_rect_contour_get_closest_point (d : Dist) (r : RectContour)
    (tolerance : ℚ) (point : Point) (threshold : ℚ) : Option RectClosest :=
  if threshold < d point (rectClosestPos r point) then none
  else
    some ⟨rectOffset r (rectTsnapped r point), rectClosestPos r point,
          d point (rectClosestPos r point),
          rectTangent r (rectTsnapped r point)⟩

/-- Evaluation rule for queries whose clamped coordinates already sit on
the square's boundary (no interior snapping) and coincide with the query
point: the reported distance is 0. -/
theorem rect_closest_eval (d : Dist) (hd : DistSpec d) (r : RectContour)
    (tolerance threshold : ℚ) (hth : 0 ≤ threshold) (q : Point) (t : ℚ × ℚ)
    (ht : rectT r q = t)
    (hni : ¬(0 < t.1 ∧ t.1 < 1 ∧ 0 < t.2 ∧ t.2 < 1))
    (ht1 : |t.1| = t.1) (ht2 : |t.2| = t.2)
    (hq : (⟨r.x + t.1 * r.width, r.y + t.2 * r.height⟩ : Point) = q) :
    gsk_rect_contour_get_closest_point d r tolerance q threshold
      = some ⟨rectOffset r t, q, 0, rectTangent r t⟩ := by
  have hsnap : rectSnap r (rectT r q) = t := by
    rw [ht]
    unfold rectSnap
    rw [if_neg hni]
  have htsn : rectTsnapped r q = t := by
    unfold rectTsnapped
    rw [hsnap, ht1, ht2]
  have hpos : rectClosestPos r q = q := by
    unfold rectClosestPos
    rw [htsn]
    exact hq
  have hd0 : d q (rectClosestPos r q) = 0 := by
    rw [hpos]
    exact (hd q q).2.1.mpr rfl
  unfold gsk_rect_contour_get_closest_point
  rw [hd0, hpos, htsn, if_neg (not_lt.mpr hth)]

/-- C7 counterexample: for the rect (0,0,10,4) and the query at the exact
center (5,0) of its top edge, `get_closest_point` succeeds with distance
0 (the query point lies on the contour), not with distance 2 (half the
perpendicular edge length) as the claim states. -/
theorem claim_C7_counterexample :
    gsk_rect_contour_get_closest_point dist1 ⟨0, 0, 10, 4⟩ 0 ⟨5, 0⟩ 100
      = some ⟨5, ⟨5, 0⟩, 0, ⟨1, 0⟩⟩ ∧ (0 : ℚ) ≠ 4 / 2 := by
  constructor
  · norm_num [gsk_rect_contour_get_closest_point, rectClosestPos,
      rectTsnapped, rectSnap, rectT, rectOffset, rectTangent, CLAMP,
      csign, dist1, abs_of_nonneg (show (0 : ℚ) ≤ 1 / 2 from by norm_num)]
  · norm_num

/-- C7 (amended): for every Rect contour with nonzero width and height
and the query at the exact center of any of its four edges,
`get_closest_point` (with nonnegative threshold) succeeds, reporting the
query point itself with distance 0, an offset placing the hit halfway
along that edge in traversal order, and a tangent parallel to the queried
edge. -/
theorem claim_C7_amended (d : Dist) (r : RectContour)
    (tolerance threshold : ℚ) (hd : DistSpec d)
    (hw : r.width ≠ 0) (hh : r.height ≠ 0) (hth : 0 ≤ threshold) :
    gsk_rect_contour_get_closest_point d r tolerance
        ⟨r.x + r.width / 2, r.y⟩ threshold
      = some ⟨|r.width| / 2, ⟨r.x + r.width / 2, r.y⟩, 0,
              ⟨csign r.width, 0⟩⟩ ∧
    gsk_rect_contour_get_closest_point d r tolerance
        ⟨r.x + r.width, r.y + r.height / 2⟩ threshold
      = some ⟨|r.width| + |r.height| / 2,
              ⟨r.x + r.width, r.y + r.height / 2⟩, 0,
              ⟨0, csign r.height⟩⟩ ∧
    gsk_rect_contour_get_closest_point d r tolerance
        ⟨r.x + r.width / 2, r.y + r.height⟩ threshold
      = some ⟨|r.height| + 3 / 2 * |r.width|,
              ⟨r.x + r.width / 2, r.y + r.height⟩, 0,
              ⟨-(csign r.width), 0⟩⟩ ∧
    gsk_rect_contour_get_closest_point d r tolerance
        ⟨r.x, r.y + r.height / 2⟩ threshold
      = some ⟨2 * |r.width| + 3 / 2 * |r.height|,
              ⟨r.x, r.y + r.height / 2⟩, 0,
              ⟨0, -(csign r.height)⟩⟩ := by
  have hhalfw : (r.width / 2) / r.width = 1 / 2 := by
    rw [div_eq_iff hw]
    ring
  have hhalfh : (r.height / 2) / r.height = 1 / 2 := by
    rw [div_eq_iff hh]
    ring
  refine ⟨?_, ?_, ?_, ?_⟩
  · -- top edge midpoint, t = (1/2, 0)
    have ht : rectT r ⟨r.x + r.width / 2, r.y⟩ = (1 / 2, 0) := by
      unfold rectT
      rw [if_pos hw, if_pos hh]
      rw [show ((⟨r.x + r.width / 2, r.y⟩ : Point).x - r.x) = r.width / 2
        from by simp; try ring]
      rw [show ((⟨r.x + r.width / 2, r.y⟩ : Point).y - r.y) = 0
        from by simp]
      rw [hhalfw]
      norm_num [CLAMP]
    rw [rect_closest_eval d hd r tolerance threshold hth _ _ ht
      (by norm_num) (by norm_num) (by norm_num)
      (by rw [Point.mk.injEq]; constructor <;> ring)]
    norm_num [rectOffset, rectTangent]
    try ring
  · -- right edge midpoint, t = (1, 1/2)
    have ht : rectT r ⟨r.x + r.width, r.y + r.height / 2⟩ = (1, 1 / 2) := by
      unfold rectT
      rw [if_pos hw, if_pos hh]
      rw [show ((⟨r.x + r.width, r.y + r.height / 2⟩ : Point).x - r.x) = r.width
        from by simp]
      rw [show ((⟨r.x + r.width, r.y + r.height / 2⟩ : Point).y - r.y)
          = r.height / 2 from by simp; try ring]
      rw [div_self hw, hhalfh]
      norm_num [CLAMP]
    rw [rect_closest_eval d hd r tolerance threshold hth _ _ ht
      (by norm_num) (by norm_num) (by norm_num)
      (by rw [Point.mk.injEq]; constructor <;> ring)]
    norm_num [rectOffset, rectTangent]
    try ring
  · -- bottom edge midpoint, t = (1/2, 1)
    have ht : rectT r ⟨r.x + r.width / 2, r.y + r.height⟩ = (1 / 2, 1) := by
      unfold rectT
      rw [if_pos hw, if_pos hh]
      rw [show ((⟨r.x + r.width / 2, r.y + r.height⟩ : Point).x - r.x)
          = r.width / 2 from by simp; try ring]
      rw [show ((⟨r.x + r.width / 2, r.y + r.height⟩ : Point).y - r.y)
          = r.height from by simp]
      rw [div_self hh, hhalfw]
      norm_num [CLAMP]
    rw [rect_closest_eval d hd r tolerance threshold hth _ _ ht
      (by norm_num) (by norm_num) (by norm_num)
      (by rw [Point.mk.injEq]; constructor <;> ring)]
    norm_num [rectOffset, rectTangent]
    try ring
  · -- left edge midpoint, t = (0, 1/2)
    have ht : rectT r ⟨r.x, r.y + r.height / 2⟩ = (0, 1 / 2) := by
      unfold rectT
      rw [if_pos hw, if_pos hh]
      rw [show ((⟨r.x, r.y + r.height / 2⟩ : Point).x - r.x) = 0
        from by simp]
      rw [show ((⟨r.x, r.y + r.height / 2⟩ : Point).y - r.y) = r.height / 2
        from by simp; try ring]
      rw [hhalfh]
      norm_num [CLAMP]
    rw [rect_closest_eval d hd r tolerance threshold hth _ _ ht
      (by norm_num) (by norm_num) (by norm_num)
      (by rw [Point.mk.injEq]; constructor <;> ring)]
    norm_num [rectOffset, rectTangent, hw]
    try ring

/-- Witness for C7 (amended): the rect (0,0,10,4) with the top-edge
midpoint (5,0) and threshold 5 — offset 5 (half the edge), distance 0,
tangent (1,0). -/
theorem claim_C7_witness :
    gsk_rect_contour_get_closest_point dist1 ⟨0, 0, 10, 4⟩ 0 ⟨5, 0⟩ 5
      = some ⟨5, ⟨5, 0⟩, 0, ⟨1, 0⟩⟩ := by
  have h := (claim_C7_amended dist1 ⟨0, 0, 10, 4⟩ 0 5 distSpec_dist1
    (by norm_num) (by norm_num) (by norm_num)).1
  norm_num [csign] at h
  exact h

/-- `add_reverse`, the foreach callback of
`gsk_standard_contour_reverse`: a move contributes nothing, a close is
re-encoded as a line, and every drawing operation is emitted reversed
through the builder. -/
def add_reverse (b : Builder) (op : PathOp) : Builder :=
  match op with
  | .move _ => b
  | op => b.curveTo (reverseCurve (opCurve op))

/-- `gsk_standard_contour_reverse`: move to the last stored point, emit
every operation reversed from last to first, and close again when the
original was closed. -/
def gsk_standard_contour_reverse (s : StdContour) : StdContour :=
  ⟨s.closed,
   (if s.closed then
      (s.ops.reverse.foldl add_reverse
        (Builder.empty.moveTo (lastStored s))).close
    else
      s.ops.reverse.foldl add_reverse
        (Builder.empty.moveTo (lastStored s))).ops⟩

/-- `gsk_rect_contour_reverse`: the rect anchored at the opposite
x corner with negated width. -/
def gsk_rect_contour_reverse (r : RectContour) : RectContour :=
  ⟨r.x + r.width, r.y, -r.width, r.height⟩

/-- `GskRoundedRectContour`: the rounded rect plus its traversal
orientation flag. -/
structure RoundedRectContour where
  rect : RoundedRect
  ccw : Bool

/-- `gsk_rounded_rect_contour_reverse`: a copy with the `ccw` flag
flipped. -/
def gsk_rounded_rect_contour_reverse (c : RoundedRectContour) :
    RoundedRectContour :=
  ⟨c.rect, !c.ccw⟩

/-- `gsk_circle_contour_reverse`: the same circle with the angles
swapped. -/
def gsk_circle_contour_reverse (c : CircleContour) : CircleContour :=
  ⟨c.center, c.radius, c.end_angle, c.start_angle⟩

/-- The syntactic reversal of one stored operation. -/
def revOp : PathOp → PathOp
  | .move p => .move p
  | .line a c => .line c a
  | .quad a q c => .quad c q a
  | .cubic a c1 c2 dd => .cubic dd c2 c1 a
  | .conic a q w c => .conic c q w a
  | .close a c => .close c a

/-- Interior operations that `add_reverse` re-emits faithfully: drawing
operations only (no move, no close), with a conic's weight point in the
canonical form the builder itself produces (weight in x, 0 in y). -/
def RevOp : PathOp → Prop
  | .move _ => False
  | .close _ _ => False
  | .conic _ _ w _ => w.y = 0
  | _ => True

theorem revOp_revOp (op : PathOp) : revOp (revOp op) = op := by
  cases op <;> rfl

theorem opStart_revOp (op : PathOp) : opStart (revOp op) = opEnd op := by
  cases op <;> rfl

theorem opEnd_revOp (op : PathOp) : opEnd (revOp op) = opStart op := by
  cases op <;> rfl

theorem revOp_good (op : PathOp) (h : RevOp op) : RevOp (revOp op) := by
  cases op <;> simp_all [RevOp, revOp]

theorem headD_reverse {α : Type} [Inhabited α] (l : List α) :
    l.reverse.headD default = l.getLastD default := by
  cases h : l.reverse with
  | nil =>
      have hnil : l = [] := by
        have h2 := congrArg List.reverse h
        simpa using h2
      simp [hnil]
  | cons a t =>
      have h2 : l.getLast? = some a := by
        rw [← List.head?_reverse, h]
        rfl
      rw [List.getLastD_eq_getLast?, h2]
      rfl

theorem getLastD_reverse {α : Type} [Inhabited α] (l : List α) :
    l.reverse.getLastD default = l.headD default := by
  have h := headD_reverse l.reverse
  rw [List.reverse_reverse] at h
  exact h.symm

theorem headD_map_revOp (l : List PathOp) (h : l ≠ []) :
    (l.map revOp).headD default = revOp (l.headD default) := by
  cases l with
  | nil => exact absurd rfl h
  | cons a t => rfl

theorem getLastD_map_revOp (l : List PathOp) (h : l ≠ []) :
    (l.map revOp).getLastD default = revOp (l.getLastD default) := by
  induction l with
  | nil => exact absurd rfl h
  | cons a t ih =>
      cases t with
      | nil => rfl
      | cons b t2 =>
          rw [List.map_cons, List.getLastD_cons, List.getLastD_cons]
          rw [getLastD_irrel ((b :: t2).map revOp) (by simp) (revOp a) default,
            getLastD_irrel (b :: t2) (by simp) a default]
          exact ih (by simp)

theorem chain3_cons {α : Type} [Inhabited α] (R : α → α → Prop) (a : α)
    (l : List α) (hl : l ≠ []) (h1 : R a (l.headD default))
    (h2 : l.Chain' R) : (a :: l).Chain' R := by
  cases l with
  | nil => exact absurd rfl hl
  | cons b t => exact List.chain'_cons.mpr ⟨h1, h2⟩

theorem chain_rev_flip (l : List PathOp)
    (h : l.Chain' (fun a c => opEnd a = opStart c)) :
    l.reverse.Chain' (fun a c => opStart a = opEnd c) := by
  rw [List.chain'_reverse]
  exact h.imp (fun a c hac => hac.symm)

theorem chain_map_rev (l : List PathOp)
    (h : l.Chain' (fun a c => opStart a = opEnd c)) :
    (l.map revOp).Chain' (fun a c => opEnd a = opStart c) := by
  rw [List.chain'_map]
  exact h.imp (fun a c hac => by rw [opEnd_revOp, opStart_revOp, hac])

theorem add_reverse_step (op : PathOp) (b : Builder) (hop : RevOp op)
    (hcur : b.cur = opEnd op) :
    add_reverse b op = ⟨b.start, opStart op, b.ops ++ [revOp op]⟩ := by
  cases op with
  | move p => simp [RevOp] at hop
  | close a c => simp [RevOp] at hop
  | line a c =>
      simp only [add_reverse, opCurve, reverseCurve, Builder.curveTo,
        Builder.lineTo, revOp, opStart, opEnd, hcur]
  | quad a q c =>
      simp only [add_reverse, opCurve, reverseCurve, Builder.curveTo,
        Builder.quadTo, revOp, opStart, opEnd, hcur]
  | cubic a c1 c2 dd =>
      simp only [add_reverse, opCurve, reverseCurve, Builder.curveTo,
        Builder.cubicTo, revOp, opStart, opEnd, hcur]
  | conic a q w c =>
      have hw : (⟨w.x, 0⟩ : Point) = w := by
        cases w with
        | mk wx wy =>
            simp only [RevOp] at hop
            simp [hop]
      simp only [add_reverse, opCurve, reverseCurve, Builder.curveTo,
        Builder.conicTo, revOp, opStart, opEnd, hcur, hw]

theorem rev_fold (m : List PathOp) :
    ∀ b : Builder, (∀ op ∈ m, RevOp op) →
      m.Chain' (fun a c => opStart a = opEnd c) →
      (m ≠ [] → b.cur = opEnd (m.headD default)) →
      (m.foldl add_reverse b).ops = b.ops ++ m.map revOp := by
  induction m with
  | nil => intro b _ _ _; simp
  | cons op m ih =>
      intro b hrev hchain hcur
      have hstep : add_reverse b op
          = ⟨b.start, opStart op, b.ops ++ [revOp op]⟩ :=
        add_reverse_step op b (hrev op (List.mem_cons_self op m))
          (by simpa using hcur (by simp))
      have hcur2 : m ≠ [] →
          (⟨b.start, opStart op, b.ops ++ [revOp op]⟩ : Builder).cur
            = opEnd (m.headD default) := by
        intro hne
        cases m with
        | nil => exact absurd rfl hne
        | cons op2 m2 =>
            have h12 := (List.chain'_cons.mp hchain).1
            simpa using h12
      rw [List.foldl_cons, hstep,
        ih _ (fun op2 h => hrev op2 (List.mem_cons_of_mem op h))
          hchain.tail hcur2]
      simp

/-- One application of the standard reverse on an open, well-shaped
contour: a move to the last stored point followed by the reversed
operations in reversed order. -/
theorem std_reverse_shape (s : StdContour) (p₀ : Point)
    (rest : List PathOp) (hclosed : s.closed = false)
    (hops : s.ops = .move p₀ :: rest) (hrev : ∀ op ∈ rest, RevOp op)
    (hchain : s.ops.Chain' (fun a c => opEnd a = opStart c)) :
    gsk_standard_contour_reverse s
      = ⟨false, .move (lastStored s) :: rest.reverse.map revOp⟩ := by
  have hch : (PathOp.move p₀ :: rest).Chain' (fun a c => opEnd a = opStart c) := by
    rw [← hops]
    exact hchain
  have hrev2 : ∀ op ∈ rest.reverse, RevOp op :=
    fun op h => hrev op (List.mem_reverse.mp h)
  have hchain2 : rest.reverse.Chain' (fun a c => opStart a = opEnd c) :=
    chain_rev_flip rest hch.tail
  have hcur2 : rest.reverse ≠ [] →
      (Builder.empty.moveTo (lastStored s)).cur
        = opEnd (rest.reverse.headD default) := by
    intro hne
    have hrne : rest ≠ [] := by
      intro h
      rw [h] at hne
      simp at hne
    show lastStored s = _
    rw [headD_reverse rest, lastStored_eq s (by rw [hops]; simp), hops,
      List.getLastD_cons, getLastD_irrel rest hrne (PathOp.move p₀) default]
  unfold gsk_standard_contour_reverse
  rw [hclosed]
  simp only [Bool.false_eq_true, if_false, StdContour.mk.injEq, true_and]
  rw [hops, List.reverse_cons, List.foldl_append]
  rw [show ∀ b2 : Builder,
      List.foldl add_reverse b2 [PathOp.move p₀] = b2 from fun b2 => rfl]
  rw [rev_fold rest.reverse (Builder.empty.moveTo (lastStored s))
    hrev2 hchain2 hcur2]
  simp [Builder.moveTo, Builder.empty]

/-- C5 counterexample: the closed contour `M 0,0 L 4,0 Z` double-reversed
has point sequence (0,0), (0,0), (4,0), (0,0), (0,0) — not the original
(0,0), (4,0), (0,0): the first reverse turns the close into a line and
appends a fresh degenerate close, whose line conversion in the second
reverse adds a zero-length segment. -/
theorem claim_C5_counterexample :
    pointsBuf (gsk_standard_contour_reverse
        (gsk_standard_contour_reverse triContour))
      = [⟨0, 0⟩, ⟨0, 0⟩, ⟨4, 0⟩, ⟨0, 0⟩, ⟨0, 0⟩] ∧
    ([⟨0, 0⟩, ⟨0, 0⟩, ⟨4, 0⟩, ⟨0, 0⟩, ⟨0, 0⟩] : List Point)
      ≠ pointsBuf triContour := by
  constructor
  · norm_num [gsk_standard_contour_reverse, triContour, add_reverse,
      pointsBuf, opContrib, lastStored, reverseCurve, opCurve,
      Builder.curveTo, Builder.lineTo, Builder.moveTo, Builder.close,
      Builder.empty]
  · simp [triContour, pointsBuf, opContrib]

/-- C5 (amended): reverse is an involution on the Rect, Rounded-Rect and
Circle contours (structurally identical contour), and on every open,
well-shaped Standard contour (one leading move, then drawing operations
with canonical conic weight points) the double reverse reproduces the
contour exactly.  Closed Standard contours are excluded: their double
reverse gains a degenerate line from the re-encoded close. -/
theorem claim_C5_amended :
    (∀ (s : StdContour) (p₀ : Point) (rest : List PathOp),
      WF s → s.closed = false → s.ops = .move p₀ :: rest →
      (∀ op ∈ rest, RevOp op) →
      gsk_standard_contour_reverse (gsk_standard_contour_reverse s) = s) ∧
    (∀ r : RectContour,
      gsk_rect_contour_reverse (gsk_rect_contour_reverse r) = r) ∧
    (∀ c : RoundedRectContour,
      gsk_rounded_rect_contour_reverse
        (gsk_rounded_rect_contour_reverse c) = c) ∧
    (∀ c : CircleContour,
      gsk_circle_contour_reverse (gsk_circle_contour_reverse c) = c) := by
  refine ⟨?_, ?_, ?_, ?_⟩
  · intro s p₀ rest hWF hclosed hops hrev
    have hch0 : (PathOp.move p₀ :: rest).Chain'
        (fun a c => opEnd a = opStart c) := by
      rw [← hops]
      exact hWF.contig
    have r1eq := std_reverse_shape s p₀ rest hclosed hops hrev hWF.contig
    cases rest with
    | nil =>
        have hL : lastStored s = p₀ := by
          rw [lastStored_eq s (by rw [hops]; simp), hops]
          rfl
        rw [r1eq, hL]
        simp only [List.reverse_nil, List.map_nil]
        have r2eq := std_reverse_shape ⟨false, [.move p₀]⟩ p₀ []
          rfl rfl (by intro op h; simp at h) (List.chain'_singleton _)
        rw [r2eq]
        simp only [List.reverse_nil, List.map_nil]
        rw [show lastStored (⟨false, [PathOp.move p₀]⟩ : StdContour) = p₀
          from rfl]
        calc (⟨false, [PathOp.move p₀]⟩ : StdContour)
            = ⟨s.closed, s.ops⟩ := by rw [hclosed, hops]
          _ = s := rfl
    | cons op1 rest2 =>
        have hne : (op1 :: rest2) ≠ [] := by simp
        have hLdef : lastStored s
            = opEnd ((op1 :: rest2).getLastD default) := by
          rw [lastStored_eq s (by rw [hops]; simp), hops, List.getLastD_cons,
            getLastD_irrel _ hne (PathOp.move p₀) default]
        have hfirst : opStart op1 = p₀ :=
          ((List.chain'_cons.mp hch0).1).symm
        have hrev1 : ∀ op ∈ ((op1 :: rest2).reverse.map revOp), RevOp op := by
          intro op h
          obtain ⟨op2, h2, rfl⟩ := List.mem_map.mp h
          exact revOp_good op2 (hrev op2 (List.mem_reverse.mp h2))
        have hchain1 : (PathOp.move (lastStored s)
              :: ((op1 :: rest2).reverse.map revOp)).Chain'
            (fun a c => opEnd a = opStart c) := by
          refine chain3_cons _ _ _ (by simp) ?_
            (chain_map_rev _ (chain_rev_flip _ hch0.tail))
          rw [headD_map_revOp _ (by simp), headD_reverse, opStart_revOp]
          exact hLdef
        have r2eq := std_reverse_shape
          ⟨false, .move (lastStored s) :: ((op1 :: rest2).reverse.map revOp)⟩
          (lastStored s) ((op1 :: rest2).reverse.map revOp)
          rfl rfl hrev1 hchain1
        rw [r1eq, r2eq]
        have hLr1 : lastStored
            (⟨false, .move (lastStored s)
              :: ((op1 :: rest2).reverse.map revOp)⟩ : StdContour) = p₀ := by
          rw [lastStored_eq _ (by simp), List.getLastD_cons,
            getLastD_irrel _ (by simp) _ default,
            getLastD_map_revOp _ (by simp), getLastD_reverse, opEnd_revOp]
          exact hfirst
        rw [hLr1]
        have hlist : (((op1 :: rest2).reverse.map revOp).reverse.map revOp)
            = op1 :: rest2 := by
          rw [← List.map_reverse, List.reverse_reverse, List.map_map,
            show revOp ∘ revOp = id from funext revOp_revOp, List.map_id]
        rw [hlist]
        calc (⟨false, PathOp.move p₀ :: op1 :: rest2⟩ : StdContour)
            = ⟨s.closed, s.ops⟩ := by rw [hclosed, hops]
          _ = s := rfl
  · intro r
    cases r with
    | mk x y w h =>
        simp only [gsk_rect_contour_reverse, RectContour.mk.injEq]
        refine ⟨by ring, trivial, by ring, trivial⟩
  · intro c
    cases c with
    | mk rect ccw =>
        simp [gsk_rounded_rect_contour_reverse]
  · intro c
    rfl

/-- Witness for C5: the double reverse evaluated on the open elbow
contour, a concrete rect, rounded rect and quarter circle. -/
theorem claim_C5_witness :
    gsk_standard_contour_reverse (gsk_standard_contour_reverse elbowContour)
      = elbowContour ∧
    gsk_rect_contour_reverse (gsk_rect_contour_reverse ⟨0, 0, 10, 4⟩)
      = ⟨0, 0, 10, 4⟩ ∧
    gsk_rounded_rect_contour_reverse (gsk_rounded_rect_contour_reverse
        ⟨⟨0, 0, 10, 4, 1, 1, 1, 1, 1, 1, 1, 1⟩, false⟩)
      = ⟨⟨0, 0, 10, 4, 1, 1, 1, 1, 1, 1, 1, 1⟩, false⟩ ∧
    gsk_circle_contour_reverse (gsk_circle_contour_reverse ⟨⟨0, 0⟩, 1, 0, 90⟩)
      = ⟨⟨0, 0⟩, 1, 0, 90⟩ := by
  obtain ⟨h1, h2, h3, h4⟩ := claim_C5_amended
  refine ⟨?_, h2 ⟨0, 0, 10, 4⟩,
    h3 ⟨⟨0, 0, 10, 4, 1, 1, 1, 1, 1, 1, 1, 1⟩, false⟩,
    h4 ⟨⟨0, 0⟩, 1, 0, 90⟩⟩
  refine h1 elbowContour ⟨0, 0⟩ [.line ⟨0, 0⟩ ⟨3, 0⟩, .line ⟨3, 0⟩ ⟨3, 4⟩]
    ⟨by simp [elbowContour], ⟨⟨0, 0⟩, rfl⟩, chain3 _ _ _ rfl rfl,
      by intro h2; simp [elbowContour] at h2⟩ rfl rfl ?_
  intro op h
  rcases List.mem_cons.mp h with rfl | h2
  · trivial
  · rcases List.mem_cons.mp h2 with rfl | h3
    · trivial
    · exact absurd h3 (List.not_mem_nil op)

end Gsk
